import Mathlib

/-!
# go-ai-ollama-rag: ingestion and retrieval pipeline

A shallow embedding of `cmd/context/main.go` and `cmd/search/main.go`.

* Go strings are byte sequences (`GoString`), indexed and measured in bytes.
* Go `int` is the 64-bit two's-complement integer: sums go through `wrapInt`.
* Loops that Go runs until a condition fails take a fuel argument; a result of
  `none` stands for a run that produces no value (a run-time panic, or a loop
  that is still running when the fuel is spent).
-/

namespace GoRag

/-! ## Go values -/

/-- A Go `byte`. -/
abbrev Byte := Fin 256

/-- A Go `string`: an immutable sequence of bytes. -/
abbrev GoString := List Byte

/-- Two's-complement wrap-around of a Go `int` (64 bits). -/
def wrapInt (x : Int) : Int := (x + 2 ^ 63) % 2 ^ 64 - 2 ^ 63

/-- Go `len(s)` as an `int`. -/
def len (s : GoString) : Int := (s.length : Int)

/-- The slice expression `s[lo:hi]`: Go panics unless `0 ≤ lo ≤ hi ≤ len(s)`. -/
def sliceStr (s : GoString) (lo hi : Int) : Option GoString :=
  if 0 ≤ lo ∧ lo ≤ hi ∧ hi ≤ len s then
    some ((s.drop lo.toNat).take (hi.toNat - lo.toNat))
  else none

/-! ## cmd/context/main.go: ChunkText -/

/-- The loop of `ChunkText`: `for i := 0; i < len(text); i += chunkSize`. -/
def ChunkTextLoop : Nat → GoString → Int → Int → List GoString → Option (List GoString)
  | 0, _, _, _, _ => none
  | fuel + 1, text, chunkSize, i, chunks =>
    if i < len text then
      let end0 := wrapInt (i + chunkSize)
      let end1 := if end0 > len text then len text else end0
      match sliceStr text i end1 with
      | none => none
      | some chunk =>
        ChunkTextLoop fuel text chunkSize (wrapInt (i + chunkSize)) (chunks ++ [chunk])
    else some chunks

/-- Models `ChunkText(text, chunkSize)`. With `chunkSize ≥ 1` the loop body runs at most
`len(text)` times, so `len(text) + 1` units of fuel cover every such run. -/
def ChunkText (text : GoString) (chunkSize : Int) : Option (List GoString) :=
  ChunkTextLoop (text.length + 1) text chunkSize 0 []

/-! ## Go runtime and `unicode/utf8`: runes -/

/-- The constant `utf8.RuneError` (U+FFFD). -/
def RuneError : Nat := 0xFFFD

/-- The constant `utf8.MaxRune`. -/
def MaxRune : Nat := 0x10FFFF

/-- The conversion `byte(x)`: the low eight bits. -/
def toByte (x : Nat) : Byte := ⟨x % 256, Nat.mod_lt _ (by decide)⟩

/-- Lower end of the accept range (`acceptRanges[...].lo`) for the second byte
of a sequence starting with `s0`. -/
def acceptLo (s0 : Nat) : Nat :=
  if s0 = 0xE0 then 0xA0 else if s0 = 0xF0 then 0x90 else 0x80

/-- Upper end of the accept range (`acceptRanges[...].hi`) for the second byte
of a sequence starting with `s0`. -/
def acceptHi (s0 : Nat) : Nat :=
  if s0 = 0xED then 0x9F else if s0 = 0xF4 then 0x8F else 0xBF

/-- Models `utf8.DecodeRuneInString(s)`: the first rune of `s` and its width in bytes.
An empty string gives `(RuneError, 0)`, an ill-formed prefix `(RuneError, 1)`.
The masks and shifts of the library are written arithmetically: `b & 0x3F` is
`b % 64`, `x << 6` is `x * 64`, and `|` joins disjoint bit fields, so it is `+`.
First bytes `00..7F` are ASCII, `C2..DF` start two bytes, `E0..EF` three,
`F0..F4` four, every other first byte is invalid; the second byte is checked
against the accept range of the first, later bytes against `80..BF`. -/
def decodeRune (s : GoString) : Nat × Nat :=
  match s with
  | [] => (RuneError, 0)
  | s0 :: rest =>
    if s0.val < 0x80 then (s0.val, 1)
    else if s0.val < 0xC2 ∨ 0xF4 < s0.val then (RuneError, 1)
    else if s0.val < 0xE0 then
      match rest with
      | s1 :: _ =>
        if s1.val < acceptLo s0.val ∨ acceptHi s0.val < s1.val then (RuneError, 1)
        else (s0.val % 32 * 64 + s1.val % 64, 2)
      | _ => (RuneError, 1)
    else if s0.val < 0xF0 then
      match rest with
      | s1 :: s2 :: _ =>
        if s1.val < acceptLo s0.val ∨ acceptHi s0.val < s1.val then (RuneError, 1)
        else if s2.val < 0x80 ∨ 0xBF < s2.val then (RuneError, 1)
        else (s0.val % 16 * 4096 + s1.val % 64 * 64 + s2.val % 64, 3)
      | _ => (RuneError, 1)
    else
      match rest with
      | s1 :: s2 :: s3 :: _ =>
        if s1.val < acceptLo s0.val ∨ acceptHi s0.val < s1.val then (RuneError, 1)
        else if s2.val < 0x80 ∨ 0xBF < s2.val then (RuneError, 1)
        else if s3.val < 0x80 ∨ 0xBF < s3.val then (RuneError, 1)
        else (s0.val % 8 * 262144 + s1.val % 64 * 4096 + s2.val % 64 * 64 + s3.val % 64, 4)
      | _ => (RuneError, 1)

/-- The three-byte form written by `utf8.AppendRune`. -/
def encode3 (r : Nat) : GoString :=
  [toByte (0xE0 + r / 4096), toByte (0x80 + r / 64 % 64), toByte (0x80 + r % 64)]

/-- Models `utf8.AppendRune(nil, r)`, which is also what `strings.Builder.WriteRune(r)`
appends and what the conversion `string([]rune)` writes for each rune: the
UTF-8 encoding of `r`, with surrogates and values above `MaxRune` replaced by
`RuneError`. Runes here are results of decoding, hence never negative. -/
def encodeRune (r : Nat) : GoString :=
  if r ≤ 0x7F then [toByte r]
  else if r ≤ 0x7FF then [toByte (0xC0 + r / 64), toByte (0x80 + r % 64)]
  else if MaxRune < r ∨ (0xD800 ≤ r ∧ r ≤ 0xDFFF) then encode3 RuneError
  else if r ≤ 0xFFFF then encode3 r
  else [toByte (0xF0 + r / 262144), toByte (0x80 + r / 4096 % 64),
        toByte (0x80 + r / 64 % 64), toByte (0x80 + r % 64)]

/-- The iterations of `for i, r := range s` from byte offset `off` on, as
`(i, r)` pairs: each iteration decodes the rune at the current offset and
advances by its width (one byte when the bytes are ill-formed, with
`r = RuneError`). The first argument counts the bytes still to be skipped. -/
def rangeFrom : Nat → Nat → GoString → List (Nat × Nat)
  | _, _, [] => []
  | 0, off, b :: t => (off, (decodeRune (b :: t)).1) ::
      rangeFrom ((decodeRune (b :: t)).2 - 1) (off + 1) t
  | k + 1, off, _ :: t => rangeFrom k (off + 1) t

/-- The iterations of `for i, r := range s`. -/
def rangeString (s : GoString) : List (Nat × Nat) := rangeFrom 0 0 s

/-- The conversion `string(rs)` of a `[]rune`. -/
def runesToString (rs : List Nat) : GoString := rs.flatMap encodeRune

/-! ## cmd/context/main.go: sanitization -/

/-- Models `isPUA(r)`. -/
def isPUA (r : Nat) : Bool :=
  (r ≥ 0xE000 && r ≤ 0xF8FF) ||
    (r ≥ 0xF0000 && r ≤ 0xFFFFD) ||
    (r ≥ 0x100000 && r ≤ 0x10FFFD)

/-- Models `RemovePUA(s)`: the builder after the loop `for _, r := range s`. -/
def RemovePUA (s : GoString) : GoString :=
  (rangeString s).foldl (fun b ir => if isPUA ir.2 then b else b ++ encodeRune ir.2) []

/-- The loop `for len(s) > 0` of `RemoveInvalidUTF8`, with `valid` the runes
collected so far. -/
def RemoveInvalidUTF8Loop : Nat → GoString → List Nat → Option (List Nat)
  | 0, _, _ => none
  | fuel + 1, s, valid =>
    if len s > 0 then
      if (decodeRune s).1 = RuneError ∧ (decodeRune s).2 = 1 then
        RemoveInvalidUTF8Loop fuel (s.drop (decodeRune s).2) valid
      else
        RemoveInvalidUTF8Loop fuel (s.drop (decodeRune s).2) (valid ++ [(decodeRune s).1])
    else some valid

/-- Models `RemoveInvalidUTF8(s)`. Every iteration removes at least one byte of `s`, so
`len(s) + 1` units of fuel cover every run. -/
def RemoveInvalidUTF8 (s : GoString) : Option GoString :=
  (RemoveInvalidUTF8Loop (s.length + 1) s []).map runesToString

/-- The sanitization applied by `extractRawText` to the response body:
`RemoveInvalidUTF8(RemovePUA(string(body)))`. -/
def sanitize (body : GoString) : Option GoString :=
  RemoveInvalidUTF8 (RemovePUA body)

/-- The number of code points of `s` (`utf8.RuneCountInString`): the number of
iterations of a `range` loop over `s`. -/
def RuneCountInString (s : GoString) : Nat := (rangeString s).length

/-- Well-formed UTF-8 (`utf8.ValidString`): no iteration of a `range` loop over
`s` meets an ill-formed byte, that is, a decoding result `(RuneError, 1)`. -/
def ValidString (s : GoString) : Bool :=
  (rangeString s).all (fun ir =>
    !((decodeRune (s.drop ir.1)).1 == RuneError && (decodeRune (s.drop ir.1)).2 == 1))

/-! ## cmd/context/main.go: errors, the store and insertEmbeddings -/

/-- A Go `error` value that is not nil. -/
inductive GoError where
  /-- The sentinel `mongo.ErrNoDocuments`. -/
  | ErrNoDocuments : GoError
  /-- An error that wraps nothing, with its message. -/
  | plain (msg : String) : GoError
  /-- An error made by `fmt.Errorf` with `%w`: its message and the error it wraps. -/
  | wrapped (msg : String) (cause : GoError) : GoError
  deriving DecidableEq, Repr

/-- The method `Error()`. -/
def GoError.Error : GoError → String
  | .ErrNoDocuments => "mongo: no documents in result"
  | .plain msg => msg
  | .wrapped msg _ => msg

/-- The method `Unwrap()`. -/
def GoError.Unwrap : GoError → Option GoError
  | .wrapped _ cause => some cause
  | _ => none

/-- Models `errors.Is(err, target)` for a non-nil `err`: some error in the chain of
`err` equals `target`. -/
def errorsIs : GoError → GoError → Bool
  | .wrapped msg cause, target =>
    decide (GoError.wrapped msg cause = target) || errorsIs cause target
  | e, target => decide (e = target)

/-- Models `fmt.Errorf(pre + "%w", err)`: with a non-nil `err` the result wraps it; with a
nil `err` the verb prints `%!w(<nil>)` and the result wraps nothing. -/
def Errorf (pre : String) (err : Option GoError) : GoError :=
  match err with
  | some e => .wrapped (pre ++ e.Error) e
  | none => .plain (pre ++ "%!w(<nil>)")

/-- A Go floating-point value: NaN, an infinity, or the finite value `m * 2 ^ e`. -/
inductive GoFloat where
  | nan : GoFloat
  | negInf : GoFloat
  | posInf : GoFloat
  | finite (m : Int) (e : Int) : GoFloat
  deriving DecidableEq, Repr

/-- The struct `document`. -/
structure document where
  ID : GoString
  FileName : GoString
  Text : GoString
  Embedding : List GoFloat
  deriving DecidableEq, Repr

/-- What the run does not control about the store: a lookup or an insert can
fail with an error of the driver (for instance a transport error). -/
structure StoreFaults where
  /-- The error of `FindOne` for an id, when the lookup itself fails. -/
  findFault : GoString → Option GoError
  /-- The error of `InsertOne` for a document, when the insert fails. -/
  insertFault : document → Option GoError

/-- Models `collection.FindOne(ctx, {id: id}).Err()` on a collection holding `docs`: nil
when a document with this id is stored, `mongo.ErrNoDocuments` when none is. -/
def FindOne (env : StoreFaults) (docs : List document) (id : GoString) : Option GoError :=
  match env.findFault id with
  | some e => some e
  | none => if docs.any (fun d => decide (d.ID = id)) then none else some .ErrNoDocuments

/-- Models `collection.InsertOne(ctx, d)`: the collection afterwards and the error. -/
def InsertOne (env : StoreFaults) (docs : List document) (d : document) :
    List document × Option GoError :=
  match env.insertFault d with
  | some e => (docs, some e)
  | none => (docs ++ [d], none)

/-- The loop `for scanner.Scan()` of `insertEmbeddings` over the remaining lines of
the ledger. `err` is the variable `err` of the function body, the one
`os.Open` assigned; `unmarshal` is `json.Unmarshal` into a `document`. The result
is the collection afterwards and the returned error. -/
def insertLoop (env : StoreFaults) (unmarshal : GoString → Except GoError document)
    (err : Option GoError) : List GoString → List document → List document × Option GoError
  | [], docs => (docs, none)
  | doc :: rest, docs =>
    match unmarshal doc with
    | .error e => (docs, some (Errorf "unmarshal: " (some e)))
    | .ok d =>
      match FindOne env docs d.ID with
      | none => insertLoop env unmarshal err rest docs
      | some resErr =>
        if !errorsIs resErr .ErrNoDocuments then
          (docs, some (Errorf "another error: " err))
        else
          match InsertOne env docs d with
          | (docs1, some e) => (docs1, some (Errorf "insert: " (some e)))
          | (docs1, none) => insertLoop env unmarshal err rest docs1

/-- Models `insertEmbeddings(ctx, collection)`: `osOpen` is the outcome of `os.Open` on
the ledger, the lines the scanner yields or the error. After a successful open
the variable `err` is nil. -/
def insertEmbeddings (env : StoreFaults) (unmarshal : GoString → Except GoError document)
    (osOpen : Except GoError (List GoString)) (docs : List document) :
    List document × Option GoError :=
  match osOpen with
  | .error e => (docs, some (Errorf "open file: " (some e)))
  | .ok lines => insertLoop env unmarshal none lines docs

/-! ## cmd/search/main.go: context assembly in questionResponse -/

/-- The comparison `a >= b` of two floats: false when either is NaN. -/
def GoFloat.ge : GoFloat → GoFloat → Bool
  | .nan, _ => false
  | _, .nan => false
  | .posInf, _ => true
  | _, .negInf => true
  | .negInf, _ => false
  | _, .posInf => false
  | .finite m1 e1, .finite m2 e2 =>
    decide (m2 * 2 ^ (e2 - min e1 e2).toNat ≤ m1 * 2 ^ (e1 - min e1 e2).toNat)

/-- The constant `.70` as a `float64`: `0x3FE6666666666666`. -/
def threshold : GoFloat := .finite 3152519739159347 (-52)

/-- The struct `searchResult`. -/
structure searchResult where
  ID : GoString
  Text : GoString
  Embedding : List GoFloat
  Score : GoFloat
  deriving DecidableEq, Repr

/-- Models `unicode.IsSpace(r)`. -/
def IsSpace (r : Nat) : Bool :=
  if r ≤ 0xFF then
    r == 0x09 || r == 0x0A || r == 0x0B || r == 0x0C || r == 0x0D || r == 0x20 ||
      r == 0x85 || r == 0xA0
  else
    r == 0x1680 || (0x2000 ≤ r && r ≤ 0x200A) || r == 0x2028 || r == 0x2029 ||
      r == 0x202F || r == 0x205F || r == 0x3000

/-- One iteration of the loop of `strings.FieldsFunc`: the state is the spans
recorded so far and the start of the open field, if one is open. -/
def fieldsStep (f : Nat → Bool) (st : List (Nat × Nat) × Option Nat) (ir : Nat × Nat) :
    List (Nat × Nat) × Option Nat :=
  if f ir.2 then
    match st.2 with
    | some start => (st.1 ++ [(start, ir.1)], none)
    | none => st
  else
    match st.2 with
    | some _ => st
    | none => (st.1, some ir.1)

/-- The spans `strings.FieldsFunc(s, f)` records: the maximal runs of runes that
do not satisfy `f`, as byte ranges. -/
def fieldSpans (s : GoString) (f : Nat → Bool) : List (Nat × Nat) :=
  match (rangeString s).foldl (fieldsStep f) ([], none) with
  | (spans, some start) => spans ++ [(start, s.length)]
  | (spans, none) => spans

/-- Models `strings.FieldsFunc(s, f)`. -/
def FieldsFunc (s : GoString) (f : Nat → Bool) : List GoString :=
  (fieldSpans s f).map (fun sp => (s.drop sp.1).take (sp.2 - sp.1))

/-- Models `strings.Fields(s)`: the fields of `s` around runs of white space. (The
library has a fast path for ASCII strings that returns the same fields.) -/
def Fields (s : GoString) : List GoString := FieldsFunc s IsSpace

/-- The variables of the loop over `results` in `questionResponse`. -/
structure Assembly where
  wordCount : Int
  chunks : GoString
  validResultCounter : Int
  deriving DecidableEq, Repr

/-- The separator `".\n"` written after each text. -/
def separator : GoString := [0x2E, 0x0A]

/-- The loop `for _, res := range results` of `questionResponse`. -/
def assembleLoop : List searchResult → Assembly → Assembly
  | [], st => st
  | res :: rest, st =>
    if GoFloat.ge res.Score threshold then
      let st1 : Assembly :=
        { validResultCounter := wrapInt (st.validResultCounter + 1)
          chunks := st.chunks ++ res.Text ++ separator
          wordCount := wrapInt (st.wordCount + ((Fields res.Text).length : Int)) }
      if st1.wordCount ≥ 1000 then st1 else assembleLoop rest st1
    else assembleLoop rest st

/-- The context `questionResponse` assembles: `chunks.String()` after the loop. -/
def assembleContext (results : List searchResult) : GoString :=
  (assembleLoop results { wordCount := 0, chunks := [], validResultCounter := 0 }).chunks

/-! ## cmd/search/main.go: the streaming callback of questionResponse -/

/-- Models `wg.Add(delta)` on a `sync.WaitGroup` with the given counter: the new counter,
or the panic the library raises when the counter would go negative. -/
def wgAdd (counter : Int) (delta : Int) : Except String Int :=
  if counter + delta < 0 then .error "sync: negative WaitGroup counter"
  else .ok (counter + delta)

/-- Models `wg.Done()`. -/
def wgDone (counter : Int) : Except String Int := wgAdd counter (-1)

/-- One invocation of the streaming callback: whether `ctx.Err() != nil` holds at
that moment, and the bytes delivered. -/
structure Increment where
  ctxErr : Bool
  chunk : GoString
  deriving DecidableEq, Repr

/-- What the callback acts on: the counter of `wg` and the bytes printed so far. -/
structure StreamState where
  counter : Int
  printed : GoString
  deriving DecidableEq, Repr

/-- The callback `f` of `questionResponse`. -/
def streamingFunc (st : StreamState) (inc : Increment) : Except String StreamState :=
  if inc.ctxErr ∨ len inc.chunk = 0 then
    match wgDone st.counter with
    | .error p => .error p
    | .ok c => .ok { st with counter := c }
  else .ok { st with printed := st.printed ++ inc.chunk }

/-- The callback invoked on a sequence of increments, in order; a panic ends it. -/
def deliver : List Increment → StreamState → Except String StreamState
  | [], st => .ok st
  | inc :: rest, st =>
    match streamingFunc st inc with
    | .error p => .error p
    | .ok st1 => deliver rest st1

/-- The state after `wg.Add(1)`, before the model is called. -/
def streamStart : StreamState := { counter := 1, printed := [] }

/-! ## Notions used to state the properties of context assembly -/

/-- The test `res.Score >= .70`. -/
def passes (res : searchResult) : Bool := GoFloat.ge res.Score threshold

/-- The number of whitespace-delimited words of a result: `len(strings.Fields(res.Text))`. -/
def wordsOf (res : searchResult) : Nat := (Fields res.Text).length

/-- The total number of words of a list of results. -/
def totalWords (l : List searchResult) : Nat := (l.map wordsOf).sum

/-- The texts of a list of results, each followed by the separator, concatenated. -/
def render (l : List searchResult) : GoString :=
  (l.map (fun res => res.Text ++ separator)).flatten

/-! ## Inputs for the concrete runs -/

/-- A store in which no lookup and no insert fails. -/
def noFaults : StoreFaults := { findFault := fun _ => none, insertFault := fun _ => none }

/-- A store in which every lookup fails with a transport error. -/
def lookupFails : StoreFaults :=
  { findFault := fun _ => some (.plain "server selection error: context deadline exceeded")
    insertFault := fun _ => none }

/-- A deserializer for the concrete runs: the line is the id and the text. -/
def lineAsDocument (line : GoString) : Except GoError document :=
  .ok { ID := line, FileName := [], Text := line, Embedding := [] }

/-- A search result with the given text and score. -/
def resultOf (text : GoString) (score : GoFloat) : searchResult :=
  { ID := [], Text := text, Embedding := [], Score := score }

/-- A text of `n` words: the word `a` followed by a space, `n` times. -/
def wordsText (n : Nat) : GoString := (List.replicate n [0x61, 0x20]).flatten

/-! ## Reference partition used in the proofs about `ChunkText` -/

/-- Cut a list into consecutive pieces of `c` elements (the last may be shorter);
the first argument bounds the number of pieces. -/
def piecesOf {α : Type} : Nat → Nat → List α → List (List α)
  | 0, _, _ => []
  | _ + 1, _, [] => []
  | n + 1, c, (a :: l) => (a :: l).take c :: piecesOf n c ((a :: l).drop c)

/-! ## Notions used in the proofs about sanitization -/

/-- Unicode scalar values: what a rune produced by decoding can be. -/
def ScalarValue (r : Nat) : Prop := r < 0xD800 ∨ (0xE000 ≤ r ∧ r ≤ 0x10FFFF)

/-- The code points that `RemovePUA` keeps. -/
def keptRunes (s : GoString) : List Nat :=
  ((rangeString s).map Prod.snd).filter (fun r => !isPUA r)


/-! ## ChunkText: the loop computes the reference partition -/

theorem wrapInt_of_range (x : Int) (h0 : 0 ≤ x) (h1 : x < 2 ^ 63) : wrapInt x = x := by
  unfold wrapInt
  omega

theorem piecesOf_flatten {α : Type} (c : Nat) (hc : 1 ≤ c) :
    ∀ (n : Nat) (l : List α), l.length ≤ n → (piecesOf n c l).flatten = l := by
  intro n
  induction n with
  | zero =>
    intro l hl
    have : l = [] := List.length_eq_zero.mp (Nat.le_zero.mp hl)
    subst this
    rfl
  | succ n ih =>
    intro l hl
    cases l with
    | nil => rfl
    | cons a l =>
      have hdrop : ((a :: l).drop c).length ≤ n := by
        rw [List.length_drop]
        simp only [List.length_cons] at hl ⊢
        omega
      simp only [piecesOf, List.flatten_cons, ih _ hdrop, List.take_append_drop]

theorem piecesOf_length {α : Type} (c : Nat) (hc : 1 ≤ c) :
    ∀ (n : Nat) (l : List α), l.length ≤ n →
      (piecesOf n c l).length = (l.length + c - 1) / c := by
  intro n
  induction n with
  | zero =>
    intro l hl
    have : l = [] := List.length_eq_zero.mp (Nat.le_zero.mp hl)
    subst this
    simp only [piecesOf, List.length_nil, Nat.zero_add]
    exact (Nat.div_eq_of_lt (by omega)).symm
  | succ n ih =>
    intro l hl
    cases l with
    | nil =>
      simp only [piecesOf, List.length_nil, Nat.zero_add]
      exact (Nat.div_eq_of_lt (by omega)).symm
    | cons a l =>
      have hdrop : ((a :: l).drop c).length ≤ n := by
        rw [List.length_drop]
        simp only [List.length_cons] at hl ⊢
        omega
      simp only [piecesOf, List.length_cons, ih _ hdrop, List.length_drop]
      by_cases hle : l.length + 1 ≤ c
      · have h1 : l.length + 1 - c = 0 := by omega
        rw [h1]
        have h2 : (0 + c - 1) / c = 0 := Nat.div_eq_of_lt (by omega)
        have h3 : (l.length + 1 + c - 1) / c = 1 := by
          apply Nat.div_eq_of_lt_le <;> omega
        omega
      · have h1 : l.length + 1 + c - 1 = (l.length + 1 - c + c - 1) + c := by omega
        rw [h1, Nat.add_div_right _ (by omega)]


theorem sliceStr_chunk (text : GoString) (i c : Nat) (hc : 1 ≤ c) (hi : i < text.length) :
    sliceStr text (i : Int)
        (if ((i : Int) + (c : Int)) > len text then len text else ((i : Int) + (c : Int)))
      = some ((text.drop i).take c) := by
  unfold sliceStr len
  by_cases h : ((i : Int) + (c : Int)) > (text.length : Int)
  · rw [if_pos h, if_pos ⟨by omega, by omega, le_refl _⟩]
    simp only [Int.toNat_ofNat]
    have h1 : text.length - i ≤ c := by omega
    rw [List.take_of_length_le (by rw [List.length_drop]),
      List.take_of_length_le (by rw [List.length_drop]; exact h1)]
  · rw [if_neg h, if_pos ⟨by omega, by omega, by omega⟩]
    have h2 : ((i : Int) + (c : Int)).toNat - (i : Int).toNat = c := by omega
    rw [h2]
    simp only [Int.toNat_ofNat]

theorem ChunkTextLoop_eq (text : GoString) (c : Nat) (hc : 1 ≤ c) (hc63 : c < 2 ^ 63)
    (hL : text.length < 2 ^ 62) :
    ∀ (fuel i : Nat) (chunks : List GoString), (i = 0 ∨ c ≤ i) → i < 2 ^ 63 →
      text.length - i + 1 ≤ fuel →
      ChunkTextLoop fuel text (c : Int) (i : Int) chunks
        = some (chunks ++ piecesOf fuel c (text.drop i)) := by
  intro fuel
  induction fuel with
  | zero => intro i chunks _ _ hf; omega
  | succ fuel ih =>
    intro i chunks hi0 hi63 hf
    by_cases hlt : i < text.length
    · have hsum : wrapInt ((i : Int) + (c : Int)) = (i : Int) + (c : Int) := by
        apply wrapInt_of_range <;> omega
      have hcond : (i : Int) < len text := by unfold len; omega
      have hnext := ih (i + c) (chunks ++ [(text.drop i).take c]) (Or.inr (by omega))
        (by omega) (by omega)
      obtain ⟨a, l, hal⟩ : ∃ a l, text.drop i = a :: l := by
        cases hd : text.drop i with
        | nil =>
          have := congrArg List.length hd
          rw [List.length_drop] at this
          simp only [List.length_nil] at this
          omega
        | cons a l => exact ⟨a, l, rfl⟩
      rw [ChunkTextLoop, if_pos hcond]
      simp only [hsum, sliceStr_chunk text i c hc hlt]
      have hcast : ((i : Int) + (c : Int)) = ((i + c : Nat) : Int) := by push_cast; rfl
      rw [hcast, hnext, hal]
      simp only [piecesOf]
      rw [← hal, List.drop_drop, List.append_assoc, List.singleton_append]
    · have hcond : ¬ ((i : Int) < len text) := by unfold len; omega
      have hnil : text.drop i = [] := List.drop_of_length_le (by omega)
      rw [ChunkTextLoop, if_neg hcond, hnil, piecesOf, List.append_nil]

theorem ChunkText_eq_piecesOf (text : GoString) (c : Nat) (hc : 1 ≤ c) (hc63 : c < 2 ^ 63)
    (hL : text.length < 2 ^ 62) :
    ChunkText text (c : Int) = some (piecesOf (text.length + 1) c text) := by
  have h := ChunkTextLoop_eq text c hc hc63 hL (text.length + 1) 0 [] (Or.inl rfl)
    (by positivity) (by omega)
  simpa [ChunkText] using h

/-! ## UTF-8: decoding what was encoded -/


theorem toByte_val (x : Nat) : (toByte x).val = x % 256 := rfl

theorem decodeRune_one (s0 : Byte) (rest : GoString) (h : s0.val < 0x80) :
    decodeRune (s0 :: rest) = (s0.val, 1) := by
  simp only [decodeRune, if_pos h]

theorem decodeRune_two (s0 s1 : Byte) (rest : GoString) (h0 : 0xC2 ≤ s0.val)
    (h0' : s0.val < 0xE0) (h1 : 0x80 ≤ s1.val) (h1' : s1.val ≤ 0xBF) :
    decodeRune (s0 :: s1 :: rest) = (s0.val % 32 * 64 + s1.val % 64, 2) := by
  have e1 : ¬ s0.val < 0x80 := by omega
  have e2 : ¬ (s0.val < 0xC2 ∨ 0xF4 < s0.val) := by omega
  have e7 : ¬ (s1.val < acceptLo s0.val ∨ acceptHi s0.val < s1.val) := by
    unfold acceptLo acceptHi; split_ifs <;> omega
  simp only [decodeRune, if_neg e1, if_neg e2, if_pos h0', if_neg e7]

theorem decodeRune_three (s0 s1 s2 : Byte) (rest : GoString) (h0 : 0xE0 ≤ s0.val)
    (h0' : s0.val < 0xF0) (h1 : acceptLo s0.val ≤ s1.val) (h1' : s1.val ≤ acceptHi s0.val)
    (h2 : 0x80 ≤ s2.val) (h2' : s2.val ≤ 0xBF) :
    decodeRune (s0 :: s1 :: s2 :: rest)
      = (s0.val % 16 * 4096 + s1.val % 64 * 64 + s2.val % 64, 3) := by
  have e1 : ¬ s0.val < 0x80 := by omega
  have e2 : ¬ (s0.val < 0xC2 ∨ 0xF4 < s0.val) := by omega
  have e3 : ¬ s0.val < 0xE0 := by omega
  have e7 : ¬ (s2.val < 0x80 ∨ 0xBF < s2.val) := by omega
  have e8 : ¬ (s1.val < acceptLo s0.val ∨ acceptHi s0.val < s1.val) := by omega
  simp only [decodeRune, if_neg e1, if_neg e2, if_neg e3, if_pos h0', if_neg e7, if_neg e8]

theorem decodeRune_four (s0 s1 s2 s3 : Byte) (rest : GoString) (h0 : 0xF0 ≤ s0.val)
    (h0' : s0.val ≤ 0xF4) (h1 : acceptLo s0.val ≤ s1.val) (h1' : s1.val ≤ acceptHi s0.val)
    (h2 : 0x80 ≤ s2.val) (h2' : s2.val ≤ 0xBF) (h3 : 0x80 ≤ s3.val) (h3' : s3.val ≤ 0xBF) :
    decodeRune (s0 :: s1 :: s2 :: s3 :: rest)
      = (s0.val % 8 * 262144 + s1.val % 64 * 4096 + s2.val % 64 * 64 + s3.val % 64, 4) := by
  have e1 : ¬ s0.val < 0x80 := by omega
  have e2 : ¬ (s0.val < 0xC2 ∨ 0xF4 < s0.val) := by omega
  have e3 : ¬ s0.val < 0xE0 := by omega
  have e3' : ¬ s0.val < 0xF0 := by omega
  have e7 : ¬ (s2.val < 0x80 ∨ 0xBF < s2.val) := by omega
  have e9 : ¬ (s3.val < 0x80 ∨ 0xBF < s3.val) := by omega
  have e8 : ¬ (s1.val < acceptLo s0.val ∨ acceptHi s0.val < s1.val) := by omega
  simp only [decodeRune, if_neg e1, if_neg e2, if_neg e3, if_neg e3', if_neg e7, if_neg e8,
    if_neg e9]

theorem decodeRune_encode3 (r : Nat) (rest : GoString) (h : 0x800 ≤ r) (h' : r ≤ 0xFFFF)
    (hs : ¬ (0xD800 ≤ r ∧ r ≤ 0xDFFF)) :
    decodeRune (encode3 r ++ rest) = (r, 3) := by
  unfold encode3
  simp only [List.cons_append, List.nil_append]
  rw [decodeRune_three]
  · simp only [toByte_val]; congr 1; omega
  all_goals simp only [toByte_val, acceptLo, acceptHi]
  all_goals first | omega | (split_ifs <;> omega)

theorem decodeRune_encodeRune (r : Nat) (rest : GoString) (hr : ScalarValue r) :
    decodeRune (encodeRune r ++ rest) = (r, (encodeRune r).length) := by
  unfold ScalarValue at hr
  unfold encodeRune MaxRune
  by_cases h1 : r ≤ 0x7F
  · rw [if_pos h1]
    simp only [List.cons_append, List.nil_append, List.length_singleton]
    rw [decodeRune_one _ _ (by rw [toByte_val]; omega), toByte_val]
    congr 1; omega
  rw [if_neg h1]
  by_cases h2 : r ≤ 0x7FF
  · rw [if_pos h2]
    simp only [List.cons_append, List.nil_append, List.length_cons, List.length_nil]
    rw [decodeRune_two]
    · simp only [toByte_val]; congr 1; omega
    all_goals simp only [toByte_val]
    all_goals omega
  rw [if_neg h2]
  have h3 : ¬ (0x10FFFF < r ∨ (0xD800 ≤ r ∧ r ≤ 0xDFFF)) := by omega
  rw [if_neg h3]
  by_cases h4 : r ≤ 0xFFFF
  · rw [if_pos h4, decodeRune_encode3 r rest (by omega) h4 (by omega)]
    rfl
  rw [if_neg h4]
  simp only [List.cons_append, List.nil_append, List.length_cons, List.length_nil]
  rw [decodeRune_four]
  · simp only [toByte_val]; congr 1; omega
  all_goals simp only [toByte_val, acceptLo, acceptHi]
  all_goals first | omega | (split_ifs <;> omega)

theorem decodeRune_scalar (s : GoString) : ScalarValue (decodeRune s).1 := by
  unfold ScalarValue
  rcases s with _ | ⟨s0, _ | ⟨s1, _ | ⟨s2, _ | ⟨s3, rest⟩⟩⟩⟩
  · simp [decodeRune, RuneError]
  all_goals
    have hb := s0.isLt
    simp only [decodeRune]
    split_ifs
    all_goals simp only [RuneError, acceptLo, acceptHi] at *
    all_goals first | omega | (split_ifs at * <;> omega)

theorem encodeRune_length (r : Nat) :
    1 ≤ (encodeRune r).length ∧ (encodeRune r).length ≤ 4 ∧
      ((encodeRune r).length = 1 → r ≤ 0x7F) := by
  unfold encodeRune encode3
  split_ifs <;> simp_all

theorem rangeFrom_encodeRune (r off : Nat) (rest : GoString) (hr : ScalarValue r) :
    rangeFrom 0 off (encodeRune r ++ rest)
      = (off, r) :: rangeFrom 0 (off + (encodeRune r).length) rest := by
  have hd := decodeRune_encodeRune r rest hr
  have hl := encodeRune_length r
  generalize encodeRune r = e at hd hl
  rcases e with _ | ⟨a, _ | ⟨b, _ | ⟨c, _ | ⟨d, _ | ⟨x, e⟩⟩⟩⟩⟩
  · simp only [List.length_nil] at hl; omega
  · simp only [List.cons_append, List.nil_append, List.length_cons, List.length_nil] at hd ⊢
    simp only [rangeFrom, hd]
  · simp only [List.cons_append, List.nil_append, List.length_cons, List.length_nil] at hd ⊢
    simp only [rangeFrom, hd]
  · simp only [List.cons_append, List.nil_append, List.length_cons, List.length_nil] at hd ⊢
    simp only [rangeFrom, hd]
  · simp only [List.cons_append, List.nil_append, List.length_cons, List.length_nil] at hd ⊢
    simp only [rangeFrom, hd]
  · simp only [List.length_cons] at hl; omega

theorem runesToString_cons (r : Nat) (rs : List Nat) :
    runesToString (r :: rs) = encodeRune r ++ runesToString rs := by
  simp only [runesToString, List.flatMap_cons]

theorem rangeFrom_runesToString (rs : List Nat) (hrs : ∀ r ∈ rs, ScalarValue r) :
    ∀ off : Nat, (rangeFrom 0 off (runesToString rs)).map Prod.snd = rs := by
  induction rs with
  | nil => intro off; rfl
  | cons r rs ih =>
    intro off
    rw [runesToString_cons, rangeFrom_encodeRune r off _ (hrs r (List.mem_cons_self _ _)),
      List.map_cons, ih (fun x hx => hrs x (List.mem_cons_of_mem _ hx))]

theorem rangeFrom_scalar (s : GoString) :
    ∀ (k off : Nat), ∀ ir ∈ rangeFrom k off s, ScalarValue ir.2 := by
  induction s with
  | nil => intro k off ir h; simp only [rangeFrom, List.not_mem_nil] at h
  | cons b t ih =>
    intro k off ir h
    cases k with
    | zero =>
      simp only [rangeFrom, List.mem_cons] at h
      rcases h with h | h
      · rw [h]; exact decodeRune_scalar _
      · exact ih _ _ ir h
    | succ k =>
      simp only [rangeFrom] at h
      exact ih _ _ ir h

theorem RemovePUA_foldl (l : List (Nat × Nat)) :
    ∀ acc : GoString,
      l.foldl (fun b ir => if isPUA ir.2 then b else b ++ encodeRune ir.2) acc
        = acc ++ runesToString ((l.map Prod.snd).filter (fun r => !isPUA r)) := by
  induction l with
  | nil => intro acc; simp [runesToString]
  | cons ir l ih =>
    intro acc
    rw [List.foldl_cons, ih]
    cases hp : isPUA ir.2
    · simp [hp, runesToString_cons]
    · simp [hp]

theorem RemovePUA_eq (s : GoString) :
    RemovePUA s
      = runesToString (((rangeString s).map Prod.snd).filter (fun r => !isPUA r)) := by
  unfold RemovePUA
  rw [RemovePUA_foldl, List.nil_append]

theorem runesToString_length (rs : List Nat) : rs.length ≤ (runesToString rs).length := by
  induction rs with
  | nil => simp [runesToString]
  | cons r rs ih =>
    rw [runesToString_cons, List.length_append, List.length_cons]
    have := (encodeRune_length r).1
    omega

theorem RemoveInvalidUTF8Loop_runesToString (rs : List Nat) (hrs : ∀ r ∈ rs, ScalarValue r) :
    ∀ (fuel : Nat) (valid : List Nat), rs.length + 1 ≤ fuel →
      RemoveInvalidUTF8Loop fuel (runesToString rs) valid = some (valid ++ rs) := by
  induction rs with
  | nil =>
    intro fuel valid hf
    cases fuel with
    | zero => omega
    | succ fuel => simp [RemoveInvalidUTF8Loop, runesToString, len]
  | cons r rs ih =>
    intro fuel valid hf
    cases fuel with
    | zero => omega
    | succ fuel =>
      have hr := hrs r (List.mem_cons_self _ _)
      have hd := decodeRune_encodeRune r (runesToString rs) hr
      have hl := encodeRune_length r
      have hpos : len (runesToString (r :: rs)) > 0 := by
        rw [runesToString_cons]
        simp only [len, List.length_append]
        omega
      have hne : ¬ (r = RuneError ∧ (encodeRune r).length = 1) := by
        rintro ⟨h1, h2⟩
        have := hl.2.2 h2
        rw [h1] at this
        simp only [RuneError] at this
        omega
      rw [RemoveInvalidUTF8Loop, if_pos hpos, runesToString_cons, hd]
      simp only [if_neg hne, List.drop_left]
      rw [ih (fun x hx => hrs x (List.mem_cons_of_mem _ hx)) fuel _
        (by simp only [List.length_cons] at hf; omega)]
      simp

theorem RemoveInvalidUTF8_runesToString (rs : List Nat) (hrs : ∀ r ∈ rs, ScalarValue r) :
    RemoveInvalidUTF8 (runesToString rs) = some (runesToString rs) := by
  unfold RemoveInvalidUTF8
  rw [RemoveInvalidUTF8Loop_runesToString rs hrs _ []
    (by have := runesToString_length rs; omega)]
  rfl

theorem RemovePUA_runesToString (rs : List Nat) (hrs : ∀ r ∈ rs, ScalarValue r) :
    RemovePUA (runesToString rs) = runesToString (rs.filter (fun r => !isPUA r)) := by
  rw [RemovePUA_eq, rangeString, rangeFrom_runesToString rs hrs]


theorem keptRunes_scalar (s : GoString) : ∀ r ∈ keptRunes s, ScalarValue r := by
  intro r hr
  simp only [keptRunes, List.mem_filter, List.mem_map] at hr
  obtain ⟨⟨ir, hir, rfl⟩, _⟩ := hr
  exact rangeFrom_scalar s 0 0 ir hir

theorem sanitize_eq (body : GoString) :
    sanitize body = some (runesToString (keptRunes body)) := by
  unfold sanitize
  rw [RemovePUA_eq]
  exact RemoveInvalidUTF8_runesToString _ (keptRunes_scalar body)

theorem sanitize_eq_RemovePUA (body : GoString) : sanitize body = some (RemovePUA body) := by
  rw [sanitize_eq, RemovePUA_eq]
  rfl

/-- C5: sanitization `RemoveInvalidUTF8(RemovePUA(s))` returns a string for every
byte string, and sanitizing that output again returns it unchanged. -/
theorem sanitize_idempotent (body : GoString) :
    ∃ t, sanitize body = some t ∧ sanitize t = some t := by
  refine ⟨runesToString (keptRunes body), sanitize_eq body, ?_⟩
  unfold sanitize
  rw [RemovePUA_runesToString _ (keptRunes_scalar body)]
  have hfix : (keptRunes body).filter (fun r => !isPUA r) = keptRunes body := by
    unfold keptRunes
    rw [List.filter_filter]
    simp
  rw [hfix]
  exact RemoveInvalidUTF8_runesToString _ (keptRunes_scalar body)

/-! ## ChunkText: concatenation, number and size of the chunks -/

theorem piecesOf_nil {α : Type} (n c : Nat) : piecesOf n c ([] : List α) = [] := by
  cases n <;> rfl

theorem piecesOf_dropLast {α : Type} (c : Nat) (hc : 1 ≤ c) :
    ∀ (n : Nat) (l : List α), l.length ≤ n →
      ∀ x ∈ (piecesOf n c l).dropLast, x.length = c := by
  intro n
  induction n with
  | zero => intro l _ x hx; simp [piecesOf] at hx
  | succ n ih =>
    intro l hl x hx
    cases l with
    | nil => simp [piecesOf] at hx
    | cons a l =>
      have hdrop : ((a :: l).drop c).length ≤ n := by
        rw [List.length_drop]
        simp only [List.length_cons] at hl ⊢
        omega
      simp only [piecesOf] at hx
      cases hrest : piecesOf n c ((a :: l).drop c) with
      | nil => rw [hrest] at hx; simp at hx
      | cons y ys =>
        rw [hrest, List.dropLast_cons₂, List.mem_cons] at hx
        rcases hx with hx | hx
        · have hne : (a :: l).drop c ≠ [] := by
            intro h
            rw [h, piecesOf_nil] at hrest
            exact List.noConfusion hrest
          have hlt : c < (a :: l).length := by
            by_contra hge
            exact hne (List.drop_of_length_le (by omega))
          rw [hx, List.length_take]
          omega
        · rw [← hrest] at hx
          exact ih _ hdrop x hx

theorem piecesOf_getLast {α : Type} (c : Nat) (hc : 1 ≤ c) :
    ∀ (n : Nat) (l : List α), l.length ≤ n →
      ∀ x, (piecesOf n c l).getLast? = some x → 1 ≤ x.length ∧ x.length ≤ c := by
  intro n
  induction n with
  | zero => intro l _ x hx; simp [piecesOf] at hx
  | succ n ih =>
    intro l hl x hx
    cases l with
    | nil => simp [piecesOf] at hx
    | cons a l =>
      have hdrop : ((a :: l).drop c).length ≤ n := by
        rw [List.length_drop]
        simp only [List.length_cons] at hl ⊢
        omega
      simp only [piecesOf] at hx
      cases hrest : piecesOf n c ((a :: l).drop c) with
      | nil =>
        rw [hrest] at hx
        simp only [List.getLast?_singleton, Option.some.injEq] at hx
        rw [← hx, List.length_take]
        simp only [List.length_cons]
        omega
      | cons y ys =>
        rw [hrest, List.getLast?_cons_cons, ← hrest] at hx
        exact ih _ hdrop x hx

theorem dropLast_flatten_getLast {α : Type} (L : List (List α)) (x : List α)
    (h : L.getLast? = some x) : L.dropLast.flatten ++ x = L.flatten := by
  have hL : L.dropLast ++ [x] = L := List.dropLast_append_getLast? x h
  conv_rhs => rw [← hL]
  simp

/-- C1: for a chunk size `chunkSize ≥ 1` (a Go `int`), `ChunkText` returns, and the
chunks concatenated in their returned order are `text` again. The bound on
`len(text)` holds for every string a 64-bit Go runtime can hold. -/
theorem ChunkText_concat (text : GoString) (chunkSize : Int) (hsize : 1 ≤ chunkSize)
    (hint : chunkSize < 2 ^ 63) (hlen : text.length < 2 ^ 62) :
    ∃ chunks, ChunkText text chunkSize = some chunks ∧ chunks.flatten = text := by
  obtain ⟨c, rfl⟩ := Int.eq_ofNat_of_zero_le (by omega : 0 ≤ chunkSize)
  have hc : 1 ≤ c := by omega
  exact ⟨_, ChunkText_eq_piecesOf text c hc (by omega) hlen,
    piecesOf_flatten c hc _ text (by omega)⟩

/-- Witness for C1: `"abcdefgh"` with size 4 gives `["abcd", "efgh"]`, which
concatenate to `"abcdefgh"`. -/
theorem ChunkText_concat_witness :
    ChunkText [0x61, 0x62, 0x63, 0x64, 0x65, 0x66, 0x67, 0x68] 4
        = some [[0x61, 0x62, 0x63, 0x64], [0x65, 0x66, 0x67, 0x68]] ∧
      ∃ chunks, ChunkText [0x61, 0x62, 0x63, 0x64, 0x65, 0x66, 0x67, 0x68] 4 = some chunks ∧
        chunks.flatten = [0x61, 0x62, 0x63, 0x64, 0x65, 0x66, 0x67, 0x68] :=
  ⟨by decide,
    ChunkText_concat [0x61, 0x62, 0x63, 0x64, 0x65, 0x66, 0x67, 0x68] 4 (by decide)
      (by decide) (by decide)⟩

/-- C7: for a chunk size `C ≥ 1`, `ChunkText` returns exactly `⌈L / C⌉` chunks,
where `L = len(text)` counts bytes, and no chunk at all when `L = 0`. -/
theorem ChunkText_count (text : GoString) (chunkSize : Int) (hsize : 1 ≤ chunkSize)
    (hint : chunkSize < 2 ^ 63) (hlen : text.length < 2 ^ 62) :
    ∃ chunks, ChunkText text chunkSize = some chunks ∧
      (chunks.length : Int) = ⌈((len text : Int) : ℚ) / ((chunkSize : Int) : ℚ)⌉ ∧
      (len text = 0 → chunks.length = 0) := by
  obtain ⟨c, rfl⟩ := Int.eq_ofNat_of_zero_le (by omega : 0 ≤ chunkSize)
  have hc : 1 ≤ c := by omega
  refine ⟨_, ChunkText_eq_piecesOf text c hc (by omega) hlen, ?_, ?_⟩
  · rw [piecesOf_length c hc _ text (by omega)]
    have hcq : (0 : ℚ) < (c : ℚ) := by exact_mod_cast hc
    symm
    rw [Int.ceil_eq_iff]
    have h1 : (text.length + c - 1) / c * c ≤ text.length + c - 1 := Nat.div_mul_le_self _ _
    have h2 : text.length + c - 1 < ((text.length + c - 1) / c + 1) * c := by
      have := Nat.lt_succ_self ((text.length + c - 1) / c)
      exact (Nat.div_lt_iff_lt_mul (by omega)).mp this
    generalize (text.length + c - 1) / c = n at h1 h2
    simp only [len, Int.cast_natCast]
    constructor
    · rw [lt_div_iff₀ hcq]
      have h3 : n * c + 1 ≤ text.length + c := by omega
      have h4 : ((n * c + 1 : ℕ) : ℚ) ≤ ((text.length + c : ℕ) : ℚ) := by exact_mod_cast h3
      push_cast at h4 ⊢
      linarith
    · rw [div_le_iff₀ hcq]
      have h3 : text.length ≤ n * c := by
        have : (n + 1) * c = n * c + c := by ring
        omega
      have h4 : ((text.length : ℕ) : ℚ) ≤ ((n * c : ℕ) : ℚ) := by exact_mod_cast h3
      push_cast at h4 ⊢
      linarith
  · intro h0
    have : text = [] := by
      simp only [len] at h0
      exact List.length_eq_zero.mp (by omega)
    subst this
    simp [piecesOf]


/-- Witness for C7: five bytes in chunks of two make three chunks. -/
theorem ChunkText_count_witness :
    ∃ chunks, ChunkText [0x61, 0x62, 0x63, 0x64, 0x65] 2 = some chunks ∧
      (chunks.length : Int)
        = ⌈((len [0x61, 0x62, 0x63, 0x64, 0x65] : Int) : ℚ) / ((2 : Int) : ℚ)⌉ ∧
      (len [0x61, 0x62, 0x63, 0x64, 0x65] = 0 → chunks.length = 0) :=
  ChunkText_count [0x61, 0x62, 0x63, 0x64, 0x65] 2 (by decide) (by decide) (by decide)

/-- C8 as stated fails: the well-formed, sanitized text `"éé"` (four bytes) with
chunk size 2 is cut into `"é"` and `"é"`, and the first chunk, which is not the
last, holds one code point, not two. -/
theorem ChunkText_characters_counterexample :
    ValidString [0xC3, 0xA9, 0xC3, 0xA9] = true ∧
      sanitize [0xC3, 0xA9, 0xC3, 0xA9] = some [0xC3, 0xA9, 0xC3, 0xA9] ∧
      ChunkText [0xC3, 0xA9, 0xC3, 0xA9] 2 = some [[0xC3, 0xA9], [0xC3, 0xA9]] ∧
      RuneCountInString [0xC3, 0xA9] = 1 := by
  decide

/-- C8, amended: for a chunk size `chunkSize ≥ 1`, counted in bytes, every chunk
`ChunkText` returns except the last contains exactly `chunkSize` bytes, and the
last holds the remaining bytes, at least one and at most `chunkSize`. -/
theorem ChunkText_sizes (text : GoString) (chunkSize : Int) (hsize : 1 ≤ chunkSize)
    (hint : chunkSize < 2 ^ 63) (hlen : text.length < 2 ^ 62) :
    ∃ chunks, ChunkText text chunkSize = some chunks ∧
      (∀ x ∈ chunks.dropLast, (x.length : Int) = chunkSize) ∧
      (∀ last, chunks.getLast? = some last →
        1 ≤ last.length ∧ (last.length : Int) ≤ chunkSize ∧
          chunks.dropLast.flatten ++ last = text) := by
  obtain ⟨c, rfl⟩ := Int.eq_ofNat_of_zero_le (by omega : 0 ≤ chunkSize)
  have hc : 1 ≤ c := by omega
  refine ⟨_, ChunkText_eq_piecesOf text c hc (by omega) hlen, ?_, ?_⟩
  · intro x hx
    rw [piecesOf_dropLast c hc _ text (by omega) x hx]
  · intro last hlast
    have h := piecesOf_getLast c hc _ text (by omega) last hlast
    refine ⟨h.1, by exact_mod_cast h.2, ?_⟩
    rw [dropLast_flatten_getLast _ _ hlast, piecesOf_flatten c hc _ text (by omega)]

/-- Witness for C8 as amended: `"éé"` in chunks of two bytes. -/
theorem ChunkText_sizes_witness :
    ∃ chunks, ChunkText [0xC3, 0xA9, 0xC3, 0xA9, 0x21] 2 = some chunks ∧
      (∀ x ∈ chunks.dropLast, (x.length : Int) = 2) ∧
      (∀ last, chunks.getLast? = some last →
        1 ≤ last.length ∧ (last.length : Int) ≤ 2 ∧
          chunks.dropLast.flatten ++ last = [0xC3, 0xA9, 0xC3, 0xA9, 0x21]) :=
  ChunkText_sizes [0xC3, 0xA9, 0xC3, 0xA9, 0x21] 2 (by decide) (by decide) (by decide)

/-! ## Sanitization of an ill-formed byte -/

/-- C6, the code at the failing input: the byte `0xFF` fails to decode, yet the
sanitized output holds the code point U+FFFD for it (`EF BF BD`); applied alone,
`RemoveInvalidUTF8` drops the byte. -/
theorem sanitize_illformed_byte :
    decodeRune [0xFF] = (RuneError, 1) ∧
      RemovePUA [0xFF] = [0xEF, 0xBF, 0xBD] ∧
      sanitize [0xFF] = some [0xEF, 0xBF, 0xBD] ∧
      RemoveInvalidUTF8 [0xFF] = some [] := by
  decide

/-! ## The streaming callback -/

/-- C10, the code at the failing input: two empty increments after `wg.Add(1)`
call `wg.Done()` twice, and the second call panics. -/
theorem deliver_two_terminations :
    deliver [{ ctxErr := false, chunk := [] }, { ctxErr := false, chunk := [] }] streamStart
      = .error "sync: negative WaitGroup counter" := by
  rfl

/-! ## insertEmbeddings: replaying the ledger -/

theorem insertLoop_first_run (env : StoreFaults)
    (unmarshal : GoString → Except GoError document) (err : Option GoError)
    (hfind : ∀ id, env.findFault id = none) (hins : ∀ d, env.insertFault d = none) :
    ∀ (lines : List GoString) (docs : List document),
      (∀ l ∈ lines, ∃ d, unmarshal l = .ok d) →
      (insertLoop env unmarshal err lines docs).2 = none ∧
      (∃ extra, (insertLoop env unmarshal err lines docs).1 = docs ++ extra ∧
        ∀ x ∈ extra, ∃ l ∈ lines, unmarshal l = .ok x) ∧
      (∀ l ∈ lines, ∀ d, unmarshal l = .ok d →
        ∃ d1 ∈ (insertLoop env unmarshal err lines docs).1, d1.ID = d.ID) := by
  intro lines
  induction lines with
  | nil => intro docs _; exact ⟨rfl, ⟨[], by simp [insertLoop], by simp⟩, by simp⟩
  | cons line rest ih =>
    intro docs hparse
    obtain ⟨d, hd⟩ := hparse line (List.mem_cons_self _ _)
    have hrest : ∀ l ∈ rest, ∃ d, unmarshal l = .ok d :=
      fun l hl => hparse l (List.mem_cons_of_mem _ hl)
    by_cases hany : docs.any (fun x => decide (x.ID = d.ID)) = true
    · have hstep : insertLoop env unmarshal err (line :: rest) docs
          = insertLoop env unmarshal err rest docs := by
        simp only [insertLoop, hd, FindOne, hfind, hany, if_true]
      rw [hstep]
      obtain ⟨h1, ⟨extra, h2, h2'⟩, h3⟩ := ih docs hrest
      refine ⟨h1, ⟨extra, h2, ?_⟩, ?_⟩
      · intro x hx
        obtain ⟨l, hl, hlx⟩ := h2' x hx
        exact ⟨l, List.mem_cons_of_mem _ hl, hlx⟩
      · intro l hl d' hd'
        rcases List.mem_cons.mp hl with rfl | hl
        · rw [hd] at hd'
          cases hd'
          obtain ⟨x, hx, hxid⟩ := List.any_eq_true.mp hany
          exact ⟨x, by rw [h2]; exact List.mem_append_left _ hx, of_decide_eq_true hxid⟩
        · exact h3 l hl d' hd'
    · have hstep : insertLoop env unmarshal err (line :: rest) docs
          = insertLoop env unmarshal err rest (docs ++ [d]) := by
        simp only [insertLoop, hd, FindOne, hfind, hany, InsertOne, hins]
        simp [errorsIs]
      rw [hstep]
      obtain ⟨h1, ⟨extra, h2, h2'⟩, h3⟩ := ih (docs ++ [d]) hrest
      refine ⟨h1, ⟨[d] ++ extra, by rw [h2, List.append_assoc], ?_⟩, ?_⟩
      · intro x hx
        rcases List.mem_append.mp hx with hx | hx
        · rw [List.mem_singleton] at hx
          subst hx
          exact ⟨line, List.mem_cons_self _ _, hd⟩
        · obtain ⟨l, hl, hlx⟩ := h2' x hx
          exact ⟨l, List.mem_cons_of_mem _ hl, hlx⟩
      · intro l hl d' hd'
        rcases List.mem_cons.mp hl with rfl | hl
        · rw [hd] at hd'
          cases hd'
          exact ⟨d, by rw [h2]; simp, rfl⟩
        · exact h3 l hl d' hd'

theorem insertLoop_all_found (env : StoreFaults)
    (unmarshal : GoString → Except GoError document) (err : Option GoError)
    (hfind : ∀ id, env.findFault id = none) (docs : List document) :
    ∀ (lines : List GoString),
      (∀ l ∈ lines, ∃ d, unmarshal l = .ok d ∧ ∃ d1 ∈ docs, d1.ID = d.ID) →
      insertLoop env unmarshal err lines docs = (docs, none) := by
  intro lines
  induction lines with
  | nil => intro _; rfl
  | cons line rest ih =>
    intro h
    obtain ⟨d, hd, d1, hd1, hid⟩ := h line (List.mem_cons_self _ _)
    have hany : docs.any (fun x => decide (x.ID = d.ID)) = true :=
      List.any_eq_true.mpr ⟨d1, hd1, decide_eq_true hid⟩
    have hstep : insertLoop env unmarshal err (line :: rest) docs
        = insertLoop env unmarshal err rest docs := by
      simp only [insertLoop, hd, FindOne, hfind, hany, if_true]
    rw [hstep]
    exact ih (fun l hl => h l (List.mem_cons_of_mem _ hl))

/-- C4: when every line of the ledger deserializes and no lookup or insert fails,
`insertEmbeddings` returns no error and leaves a collection that keeps what was
stored before, followed only by records of the ledger, and in which the lookup
of every record's id finds a document; a second run over the same ledger
therefore skips every record: it returns no error and leaves the collection,
and so the document count, exactly as the first run left it. -/
theorem insertEmbeddings_idempotent (env : StoreFaults)
    (unmarshal : GoString → Except GoError document) (lines : List GoString)
    (docs : List document)
    (hparse : ∀ l ∈ lines, ∃ d, unmarshal l = .ok d)
    (hfind : ∀ id, env.findFault id = none) (hins : ∀ d, env.insertFault d = none) :
    ∃ docs1, insertEmbeddings env unmarshal (.ok lines) docs = (docs1, none) ∧
      (∃ extra, docs1 = docs ++ extra ∧ ∀ x ∈ extra, ∃ l ∈ lines, unmarshal l = .ok x) ∧
      (∀ l ∈ lines, ∀ d, unmarshal l = .ok d → FindOne env docs1 d.ID = none) ∧
      insertEmbeddings env unmarshal (.ok lines) docs1 = (docs1, none) ∧
      (insertEmbeddings env unmarshal (.ok lines) docs1).1.length = docs1.length := by
  obtain ⟨h1, h2, h3⟩ :=
    insertLoop_first_run env unmarshal none hfind hins lines docs hparse
  have hsecond : insertLoop env unmarshal none lines
      (insertLoop env unmarshal none lines docs).1
        = ((insertLoop env unmarshal none lines docs).1, none) := by
    apply insertLoop_all_found env unmarshal none hfind
    intro l hl
    obtain ⟨d, hd⟩ := hparse l hl
    exact ⟨d, hd, h3 l hl d hd⟩
  refine ⟨(insertLoop env unmarshal none lines docs).1, ?_, h2, ?_, ?_, ?_⟩
  · simp only [insertEmbeddings]
    exact Prod.ext rfl h1
  · intro l hl d hd
    obtain ⟨d1, hd1, hid⟩ := h3 l hl d hd
    have hany : (insertLoop env unmarshal none lines docs).1.any
        (fun x => decide (x.ID = d.ID)) = true :=
      List.any_eq_true.mpr ⟨d1, hd1, decide_eq_true hid⟩
    simp only [FindOne, hfind, hany, if_true]
  · simp only [insertEmbeddings]
    exact hsecond
  · simp only [insertEmbeddings]
    rw [hsecond]

/-- Witness for C4: the ledger `a`, `a`, `b` replayed into an empty collection
stores `a` and `b`, and the theorem holds of this run. -/
theorem insertEmbeddings_idempotent_witness :
    insertEmbeddings noFaults lineAsDocument (.ok [[0x61], [0x61], [0x62]]) []
        = ([{ ID := [0x61], FileName := [], Text := [0x61], Embedding := [] },
            { ID := [0x62], FileName := [], Text := [0x62], Embedding := [] }], none) ∧
    ∃ docs1, insertEmbeddings noFaults lineAsDocument (.ok [[0x61], [0x61], [0x62]]) []
        = (docs1, none) ∧
      (∃ extra, docs1 = [] ++ extra ∧
        ∀ x ∈ extra, ∃ l ∈ [[0x61], [0x61], [0x62]], lineAsDocument l = .ok x) ∧
      (∀ l ∈ [[0x61], [0x61], [0x62]], ∀ d, lineAsDocument l = .ok d →
        FindOne noFaults docs1 d.ID = none) ∧
      insertEmbeddings noFaults lineAsDocument (.ok [[0x61], [0x61], [0x62]]) docs1
        = (docs1, none) ∧
      (insertEmbeddings noFaults lineAsDocument (.ok [[0x61], [0x61], [0x62]]) docs1).1.length
        = docs1.length :=
  ⟨by decide,
    insertEmbeddings_idempotent noFaults lineAsDocument [[0x61], [0x61], [0x62]] []
      (fun _ _ => ⟨_, rfl⟩) (fun _ => rfl) (fun _ => rfl)⟩

/-- C9, the code at the failing input: the lookup of the only record fails with a
transport error; `insertEmbeddings` stops and inserts nothing, but the error it
returns is built from the variable `err` of `os.Open`, which is nil there, so it
wraps nothing and the lookup error is not in its chain. -/
theorem insertEmbeddings_lookup_error_lost :
    FindOne lookupFails [] [0x61]
        = some (.plain "server selection error: context deadline exceeded") ∧
      insertEmbeddings lookupFails lineAsDocument (.ok [[0x61]]) []
        = ([], some (.plain "another error: %!w(<nil>)")) ∧
      (GoError.plain "another error: %!w(<nil>)").Unwrap = none ∧
      errorsIs (.plain "another error: %!w(<nil>)")
        (.plain "server selection error: context deadline exceeded") = false := by
  decide

/-! ## Context assembly: threshold and word budget -/

theorem rangeFrom_length_le (s : GoString) :
    ∀ (k off : Nat), (rangeFrom k off s).length ≤ s.length := by
  induction s with
  | nil => intro k off; simp [rangeFrom]
  | cons b t ih =>
    intro k off
    cases k with
    | zero =>
      simp only [rangeFrom, List.length_cons]
      have := ih ((decodeRune (b :: t)).2 - 1) (off + 1)
      omega
    | succ k =>
      simp only [rangeFrom, List.length_cons]
      have := ih k (off + 1)
      omega

theorem fieldsStep_measure (f : Nat → Bool) (st : List (Nat × Nat) × Option Nat)
    (ir : Nat × Nat) :
    (fieldsStep f st ir).1.length + (if (fieldsStep f st ir).2.isSome then 1 else 0)
      ≤ st.1.length + (if st.2.isSome then 1 else 0) + 1 := by
  obtain ⟨spans, start⟩ := st
  unfold fieldsStep
  cases f ir.2 <;> cases start <;> simp

theorem fieldsFold_measure (f : Nat → Bool) (l : List (Nat × Nat)) :
    ∀ st : List (Nat × Nat) × Option Nat,
      (l.foldl (fieldsStep f) st).1.length
          + (if (l.foldl (fieldsStep f) st).2.isSome then 1 else 0)
        ≤ st.1.length + (if st.2.isSome then 1 else 0) + l.length := by
  induction l with
  | nil => intro st; simp
  | cons ir l ih =>
    intro st
    rw [List.foldl_cons, List.length_cons]
    have h1 := ih (fieldsStep f st ir)
    have h2 := fieldsStep_measure f st ir
    omega

theorem Fields_length_le (s : GoString) : (Fields s).length ≤ s.length := by
  unfold Fields FieldsFunc fieldSpans
  rw [List.length_map]
  have h1 := fieldsFold_measure IsSpace (rangeString s) ([], none)
  have h2 : (rangeString s).length ≤ s.length := rangeFrom_length_le s 0 0
  generalize (rangeString s).foldl (fieldsStep IsSpace) ([], none) = st at h1
  obtain ⟨spans, start⟩ := st
  cases start with
  | none => simp at h1 ⊢; omega
  | some start => simp at h1 ⊢; omega

theorem totalWords_cons (r : searchResult) (l : List searchResult) :
    totalWords (r :: l) = wordsOf r + totalWords l := by
  simp [totalWords]

theorem render_cons (r : searchResult) (l : List searchResult) :
    render (r :: l) = r.Text ++ separator ++ render l := by
  simp [render]

theorem totalWords_take_le (l : List searchResult) :
    ∀ k : Nat, totalWords (l.take k) ≤ totalWords l := by
  induction l with
  | nil => intro k; simp [totalWords]
  | cons r l ih =>
    intro k
    cases k with
    | zero => simp [totalWords]
    | succ k =>
      rw [List.take_succ_cons, totalWords_cons, totalWords_cons]
      have := ih k
      omega

theorem wordsOf_le_totalWords (l : List searchResult) :
    ∀ r ∈ l, wordsOf r ≤ totalWords l := by
  induction l with
  | nil => intro r hr; simp at hr
  | cons a l ih =>
    intro r hr
    rw [totalWords_cons]
    rcases List.mem_cons.mp hr with rfl | hr
    · omega
    · have := ih r hr
      omega

theorem assembleLoop_spec :
    ∀ (results : List searchResult) (st : Assembly),
      0 ≤ st.wordCount → st.wordCount < 1000 →
      (∀ r ∈ results, passes r = true → wordsOf r < 2 ^ 62) →
      ∃ k, k ≤ (results.filter passes).length ∧
        (assembleLoop results st).chunks
          = st.chunks ++ render ((results.filter passes).take k) ∧
        (∀ j, j < k →
          st.wordCount + (totalWords ((results.filter passes).take j) : Int) < 1000) ∧
        (k < (results.filter passes).length →
          1000 ≤ st.wordCount + (totalWords ((results.filter passes).take k) : Int)) := by
  intro results
  induction results with
  | nil =>
    intro st _ _ _
    exact ⟨0, by simp, by simp [assembleLoop, render], by simp, by simp⟩
  | cons res rest ih =>
    intro st h0 h1 hw
    have hwrest : ∀ r ∈ rest, passes r = true → wordsOf r < 2 ^ 62 :=
      fun r hr => hw r (List.mem_cons_of_mem _ hr)
    by_cases hp : passes res = true
    · have hge : GoFloat.ge res.Score threshold = true := hp
      have hwr := hw res (List.mem_cons_self _ _) hp
      have hsum : wrapInt (st.wordCount + ((Fields res.Text).length : Int))
          = st.wordCount + (wordsOf res : Int) := by
        unfold wordsOf at hwr ⊢
        apply wrapInt_of_range <;> omega
      rw [List.filter_cons_of_pos hp]
      by_cases hbreak : st.wordCount + (wordsOf res : Int) ≥ 1000
      · refine ⟨1, by simp, ?_, ?_, ?_⟩
        · simp only [assembleLoop, hge, if_true, hsum, if_pos hbreak]
          simp [render]
        · intro j hj
          have : j = 0 := by omega
          subst this
          simp [totalWords]
          exact h1
        · intro _
          simp only [List.take_succ_cons, List.take_zero, totalWords_cons]
          simp only [totalWords, List.map_nil, List.sum_nil]
          push_cast
          omega
      · obtain ⟨k, hk, hchunks, hbelow, hreach⟩ := ih
          { validResultCounter := wrapInt (st.validResultCounter + 1)
            chunks := st.chunks ++ res.Text ++ separator
            wordCount := st.wordCount + (wordsOf res : Int) }
          (by simp only; omega) (by simp only; omega) hwrest
        refine ⟨k + 1, by simp; omega, ?_, ?_, ?_⟩
        · simp only [assembleLoop, hge, if_true, hsum, if_neg hbreak]
          rw [hchunks, List.take_succ_cons, render_cons]
          simp
        · intro j hj
          cases j with
          | zero => simp [totalWords]; exact h1
          | succ j =>
            have := hbelow j (by omega)
            rw [List.take_succ_cons, totalWords_cons]
            simp only at this
            push_cast
            omega
        · intro hlt
          have := hreach (by simpa using hlt)
          rw [List.take_succ_cons, totalWords_cons]
          simp only at this
          push_cast
          omega
    · have hge : ¬ (GoFloat.ge res.Score threshold = true) := hp
      rw [List.filter_cons_of_neg hp]
      obtain ⟨k, hk, hchunks, hbelow, hreach⟩ := ih st h0 h1 hwrest
      refine ⟨k, hk, ?_, hbelow, hreach⟩
      simp only [assembleLoop, if_neg hge]
      exact hchunks

/-- C3: the context holds, each followed by the separator and in full, exactly the
first `k` of the results with score `≥ 0.70`, where `k` is the length of the
shortest prefix of those results whose cumulative word count reaches 1000: no
shorter prefix reaches 1000 and, unless the prefix is all of them, this one
does. The bound on the text lengths holds for every string a 64-bit Go runtime
can hold. -/
theorem assembleContext_budget (results : List searchResult)
    (hlen : ∀ r ∈ results, r.Text.length < 2 ^ 62) :
    ∃ k, k ≤ (results.filter passes).length ∧
      assembleContext results = render ((results.filter passes).take k) ∧
      (∀ j, j < k → totalWords ((results.filter passes).take j) < 1000) ∧
      (k < (results.filter passes).length →
        1000 ≤ totalWords ((results.filter passes).take k)) := by
  obtain ⟨k, hk, hchunks, hbelow, hreach⟩ := assembleLoop_spec results
    { wordCount := 0, chunks := [], validResultCounter := 0 } (by simp) (by simp)
    (fun r hr _ => lt_of_le_of_lt (Fields_length_le r.Text) (hlen r hr))
  refine ⟨k, hk, ?_, ?_, ?_⟩
  · simpa [assembleContext] using hchunks
  · intro j hj
    have := hbelow j hj
    simp only [zero_add] at this
    exact_mod_cast this
  · intro hlt
    have := hreach hlt
    simp only [zero_add] at this
    exact_mod_cast this

/-- C2: when the results with score `≥ 0.70` total fewer than 1000 words, the
context is exactly their texts, each followed by `".\n"`, in the original
relative order; results with a lower score contribute nothing. -/
theorem assembleContext_threshold (results : List searchResult)
    (hwords : totalWords (results.filter passes) < 1000) :
    assembleContext results = render (results.filter passes) := by
  obtain ⟨k, hk, hchunks, _, hreach⟩ := assembleLoop_spec results
    { wordCount := 0, chunks := [], validResultCounter := 0 } (by simp) (by simp)
    (fun r hr hp => by
      have h1 := wordsOf_le_totalWords (results.filter passes) r
        (List.mem_filter.mpr ⟨hr, hp⟩)
      omega)
  have hall : k = (results.filter passes).length := by
    by_contra hne
    have h1 := hreach (by omega)
    have h2 := totalWords_take_le (results.filter passes) k
    simp only [zero_add] at h1
    have h3 : (1000 : Int) ≤ (totalWords (List.filter passes results) : Int) := by
      have : ((totalWords (List.take k (List.filter passes results)) : Nat) : Int)
          ≤ ((totalWords (List.filter passes results) : Nat) : Int) := by exact_mod_cast h2
      omega
    omega
  rw [hall, List.take_length] at hchunks
  simpa [assembleContext] using hchunks

/-- Witness for C2: scores 0.9, 0.5 and 0.8 with the texts `a b`, `c` and `d`: the
context is `a b.\nd.\n`, the first and the third result only. -/
theorem assembleContext_threshold_witness :
    totalWords
        ([resultOf [0x61, 0x20, 0x62] (.finite 8106479329266893 (-53)),
          resultOf [0x63] (.finite 1 (-1)),
          resultOf [0x64] (.finite 3602879701896397 (-52))].filter passes) < 1000 ∧
      assembleContext
          [resultOf [0x61, 0x20, 0x62] (.finite 8106479329266893 (-53)),
            resultOf [0x63] (.finite 1 (-1)),
            resultOf [0x64] (.finite 3602879701896397 (-52))]
        = render
          ([resultOf [0x61, 0x20, 0x62] (.finite 8106479329266893 (-53)),
            resultOf [0x63] (.finite 1 (-1)),
            resultOf [0x64] (.finite 3602879701896397 (-52))].filter passes) ∧
      render
          ([resultOf [0x61, 0x20, 0x62] (.finite 8106479329266893 (-53)),
            resultOf [0x63] (.finite 1 (-1)),
            resultOf [0x64] (.finite 3602879701896397 (-52))].filter passes)
        = [0x61, 0x20, 0x62, 0x2E, 0x0A, 0x64, 0x2E, 0x0A] :=
  ⟨by decide,
    assembleContext_threshold
      [resultOf [0x61, 0x20, 0x62] (.finite 8106479329266893 (-53)),
        resultOf [0x63] (.finite 1 (-1)),
        resultOf [0x64] (.finite 3602879701896397 (-52))] (by decide),
    by decide⟩

theorem rangeFrom_word (off : Nat) (rest : GoString) :
    rangeFrom 0 off ((0x61 : Byte) :: (0x20 : Byte) :: rest)
      = (off, 0x61) :: (off + 1, 0x20) :: rangeFrom 0 (off + 1 + 1) rest := by
  have h1 : decodeRune ((0x61 : Byte) :: (0x20 : Byte) :: rest) = (0x61, 1) :=
    decodeRune_one _ _ (by decide)
  have h2 : decodeRune ((0x20 : Byte) :: rest) = (0x20, 1) :=
    decodeRune_one _ _ (by decide)
  simp only [rangeFrom, h1, h2]

theorem fieldsFold_wordsText (n : Nat) :
    ∀ (off : Nat) (spans : List (Nat × Nat)),
      ((rangeFrom 0 off (wordsText n)).foldl (fieldsStep IsSpace) (spans, none)).2 = none ∧
      ((rangeFrom 0 off (wordsText n)).foldl (fieldsStep IsSpace) (spans, none)).1.length
        = spans.length + n := by
  induction n with
  | zero => intro off spans; simp [wordsText, rangeFrom]
  | succ n ih =>
    intro off spans
    have hw : wordsText (n + 1) = (0x61 : Byte) :: (0x20 : Byte) :: wordsText n := by
      simp [wordsText, List.replicate_succ]
    have hs1 : IsSpace 0x61 = false := by decide
    have hs2 : IsSpace 0x20 = true := by decide
    rw [hw, rangeFrom_word, List.foldl_cons, List.foldl_cons]
    simp only [fieldsStep, hs1, hs2, if_true, Bool.false_eq_true, if_false]
    obtain ⟨h1, h2⟩ := ih (off + 1 + 1) (spans ++ [(off, off + 1)])
    refine ⟨h1, ?_⟩
    rw [h2, List.length_append, List.length_singleton]
    omega

theorem Fields_wordsText (n : Nat) : (Fields (wordsText n)).length = n := by
  unfold Fields FieldsFunc fieldSpans rangeString
  rw [List.length_map]
  obtain ⟨h1, h2⟩ := fieldsFold_wordsText n 0 []
  generalize (rangeFrom 0 0 (wordsText n)).foldl (fieldsStep IsSpace) ([], none) = st at h1 h2
  obtain ⟨spans, start⟩ := st
  simp only at h1 h2
  subst h1
  simpa using h2

theorem wordsText_length (n : Nat) : (wordsText n).length = 2 * n := by
  induction n with
  | zero => rfl
  | succ n ih =>
    have hw : wordsText (n + 1) = (0x61 : Byte) :: (0x20 : Byte) :: wordsText n := by
      simp [wordsText, List.replicate_succ]
    rw [hw, List.length_cons, List.length_cons, ih]
    omega

theorem assembleContext_two_of_three (a b c : searchResult) (ha : passes a = true)
    (hb : passes b = true) (hwa : (Fields a.Text).length = 600)
    (hwb : (Fields b.Text).length = 600) :
    assembleContext [a, b, c] = a.Text ++ separator ++ (b.Text ++ separator) := by
  have ha1 : GoFloat.ge a.Score threshold = true := ha
  have hb1 : GoFloat.ge b.Score threshold = true := hb
  have h1 : wrapInt (0 + (600 : Int)) = 600 := by decide
  have h2 : wrapInt (600 + (600 : Int)) = 1200 := by decide
  simp only [assembleContext, assembleLoop, ha1, hb1, if_true, hwa, hwb, Nat.cast_ofNat,
    h1, h2]
  simp

theorem wordsText_results_short :
    ∀ r ∈ [resultOf (wordsText 600) (.finite 1 0), resultOf (wordsText 600) (.finite 1 0),
        resultOf (wordsText 1) (.finite 1 0)],
      r.Text.length < 2 ^ 62 := by
  intro r hr
  simp only [List.mem_cons, List.mem_singleton, List.not_mem_nil, or_false] at hr
  rcases hr with rfl | rfl | rfl <;> simp only [resultOf, wordsText_length] <;> norm_num

/-- Witness for C3: three results above the threshold, of 600, 600 and 1 words.
The context holds the first two in full and not the third. -/
theorem assembleContext_budget_witness :
    (assembleContext [resultOf (wordsText 600) (.finite 1 0),
        resultOf (wordsText 600) (.finite 1 0), resultOf (wordsText 1) (.finite 1 0)]
      = wordsText 600 ++ separator ++ (wordsText 600 ++ separator)) ∧
    ∃ k, k ≤ ([resultOf (wordsText 600) (.finite 1 0),
        resultOf (wordsText 600) (.finite 1 0),
        resultOf (wordsText 1) (.finite 1 0)].filter passes).length ∧
      assembleContext [resultOf (wordsText 600) (.finite 1 0),
          resultOf (wordsText 600) (.finite 1 0), resultOf (wordsText 1) (.finite 1 0)]
        = render (([resultOf (wordsText 600) (.finite 1 0),
            resultOf (wordsText 600) (.finite 1 0),
            resultOf (wordsText 1) (.finite 1 0)].filter passes).take k) ∧
      (∀ j, j < k →
        totalWords (([resultOf (wordsText 600) (.finite 1 0),
          resultOf (wordsText 600) (.finite 1 0),
          resultOf (wordsText 1) (.finite 1 0)].filter passes).take j) < 1000) ∧
      (k < ([resultOf (wordsText 600) (.finite 1 0),
          resultOf (wordsText 600) (.finite 1 0),
          resultOf (wordsText 1) (.finite 1 0)].filter passes).length →
        1000 ≤ totalWords (([resultOf (wordsText 600) (.finite 1 0),
          resultOf (wordsText 600) (.finite 1 0),
          resultOf (wordsText 1) (.finite 1 0)].filter passes).take k)) :=
  ⟨assembleContext_two_of_three _ _ _ (by decide) (by decide) (Fields_wordsText 600)
      (Fields_wordsText 600),
    assembleContext_budget
      [resultOf (wordsText 600) (.finite 1 0), resultOf (wordsText 600) (.finite 1 0),
        resultOf (wordsText 1) (.finite 1 0)] wordsText_results_short⟩

end GoRag
